import Mathlib

/-!
Verification of the Stingyclaw dispatch/orchestration layer against its
natural-language specification.

The definitions below are a shallow embedding of the agent-runner
(`container/agent-runner/src/index.ts`) and, where noted, of the host-side
queue controller.  File systems are modelled as association lists from file
names to contents; machine effects (model calls, tool execution, JSON
parsing) are modelled as explicit oracle parameters.
-/

namespace Stingyclaw

/-! ### File-system model

A directory is an association list from file names to file contents.
`setFile` models `fs.writeFileSync` (create or overwrite), `removeFile`
models `fs.unlinkSync`, `renameFile` models `fs.renameSync`. -/

abbrev Dir := List (String × String)

def getFile : Dir → String → Option String
  | [], _ => none
  | (n, c) :: rest, f => if n = f then some c else getFile rest f

def removeFile : Dir → String → Dir
  | [], _ => []
  | (n, c) :: rest, f =>
    if n = f then removeFile rest f else (n, c) :: removeFile rest f

def setFile (dir : Dir) (f c : String) : Dir :=
  (f, c) :: removeFile dir f

def renameFile (dir : Dir) (old new : String) : Dir :=
  match getFile dir old with
  | some c => setFile (removeFile dir old) new c
  | none => dir

/-- `name.endsWith ".json")` as used by the reader in `drainIpcInput`:
the string `".json"` is a suffix of the file name. -/
def hasJsonExt (s : String) : Bool :=
  decide (".json".data <:+ s.data)

theorem getFile_removeFile (dir : Dir) (f n : String) (h : n ≠ f) :
    getFile (removeFile dir f) n = getFile dir n := by
  induction dir with
  | nil => rfl
  | cons p rest ih =>
    cases p with
    | mk pn pc =>
      by_cases hp : pn = f
      · rw [removeFile, if_pos hp, ih]
        have hpn : pn ≠ n := fun hc => h (hc.symm.trans hp)
        rw [getFile, if_neg hpn]
      · rw [removeFile, if_neg hp]
        by_cases hn : pn = n
        · rw [getFile, if_pos hn, getFile, if_pos hn]
        · rw [getFile, if_neg hn, getFile, if_neg hn, ih]

theorem getFile_removeFile_self (dir : Dir) (f : String) :
    getFile (removeFile dir f) f = none := by
  induction dir with
  | nil => rfl
  | cons p rest ih =>
    cases p with
    | mk pn pc =>
      by_cases hp : pn = f
      · rw [removeFile, if_pos hp]; exact ih
      · rw [removeFile, if_neg hp, getFile, if_neg hp]; exact ih

theorem getFile_setFile (dir : Dir) (f c n : String) :
    getFile (setFile dir f c) n = if f = n then some c else getFile dir n := by
  by_cases h : f = n
  · rw [setFile, getFile, if_pos h, if_pos h]
  · rw [setFile, getFile, if_neg h, if_neg h]
    exact getFile_removeFile dir f n (fun hc => h hc.symm)

/-! ### Claim C2: atomic IPC writes (`writeIpcFile`)

`writeIpcFile(dir, data)` builds a unique file name
`` `${Date.now()}-${Math.random()...}.json` ``, writes the serialized data to
`` `${fp}.tmp` `` and then renames the temporary file onto the final name.
`writeIpcStates` is the list of directory states a concurrent reader could
observe: one state per partially-written prefix of the content while the
temporary file is being written, then the single state after the rename. -/

def ipcFilename (ts : Nat) (rand : String) : String :=
  toString ts ++ "-" ++ rand ++ ".json"

def writeIpcStates (dir : Dir) (fp : String) (content : String) : List Dir :=
  ((List.range (content.length + 1)).map
    (fun k => setFile dir (fp ++ ".tmp") (content.take k)))
  ++ [renameFile (setFile dir (fp ++ ".tmp") content) (fp ++ ".tmp") fp]

theorem hasJsonExt_tmp (s : String) : hasJsonExt (s ++ ".tmp") = false := by
  simp only [hasJsonExt, decide_eq_false_iff_not]
  intro h
  obtain ⟨t, ht⟩ := h
  rw [String.data_append] at ht
  have h2 := congrArg List.reverse ht
  simp only [List.reverse_append] at h2
  have e1 : (String.data ".json").reverse = 'n' :: 'o' :: 's' :: 'j' :: '.' :: [] := rfl
  have e2 : (String.data ".tmp").reverse = 'p' :: 'm' :: 't' :: '.' :: [] := rfl
  rw [e1, e2] at h2
  injection h2 with h3 _
  exact absurd h3 (by decide)

theorem hasJsonExt_ipcFilename (ts : Nat) (rand : String) :
    hasJsonExt (ipcFilename ts rand) = true := by
  simp only [hasJsonExt, ipcFilename, decide_eq_true_eq]
  rw [String.data_append]
  exact List.suffix_append _ _

theorem ne_of_jsonExt {n fp : String} (h : hasJsonExt n = true) :
    n ≠ fp ++ ".tmp" := by
  intro hc
  rw [hc, hasJsonExt_tmp] at h
  exact Bool.false_ne_true h

/-- C2: every Mailbox Message the worker produces (via the IPC-writing
capabilities) is first fully written under a temporary `.tmp` name and only
then renamed into the watched directory; a reader that considers only files
whose names end in `.json` never observes a partially written message: in
every observable intermediate state, a `.json`-named file either has the
content it had before the write began, or is the new file with its complete
content. -/
theorem writeIpcFile_atomic (dir : Dir) (ts : Nat) (rand content : String)
    (st : Dir) (hst : st ∈ writeIpcStates dir (ipcFilename ts rand) content)
    (n : String) (hjson : hasJsonExt n = true) :
    getFile st n = getFile dir n ∨
      (n = ipcFilename ts rand ∧ getFile st n = some content) := by
  set fp := ipcFilename ts rand with hfp
  have hntmp : n ≠ fp ++ ".tmp" := ne_of_jsonExt hjson
  rcases List.mem_append.mp hst with hmap | hlast
  · left
    obtain ⟨k, _, hk⟩ := List.mem_map.mp hmap
    rw [← hk, getFile_setFile, if_neg (fun hc => hntmp hc.symm)]
  · have hone : st = renameFile (setFile dir (fp ++ ".tmp") content)
        (fp ++ ".tmp") fp := List.mem_singleton.mp hlast
    have hget : getFile (setFile dir (fp ++ ".tmp") content) (fp ++ ".tmp")
        = some content := by
      rw [getFile_setFile, if_pos rfl]
    rw [hone, renameFile, hget]
    by_cases hn : fp = n
    · right
      exact ⟨hn.symm, by rw [getFile_setFile, if_pos hn]⟩
    · left
      rw [getFile_setFile, if_neg hn,
        getFile_removeFile _ _ _ hntmp,
        getFile_setFile, if_neg (fun hc => hntmp hc.symm)]

/-- Witness for C2 at a concrete write into an empty directory. -/
theorem writeIpcFile_atomic_witness :
    getFile (renameFile (setFile [] (ipcFilename 5 "ab" ++ ".tmp") "x")
        (ipcFilename 5 "ab" ++ ".tmp") (ipcFilename 5 "ab")) (ipcFilename 5 "ab")
      = getFile ([] : Dir) (ipcFilename 5 "ab")
    ∨ (ipcFilename 5 "ab" = ipcFilename 5 "ab" ∧
       getFile (renameFile (setFile [] (ipcFilename 5 "ab" ++ ".tmp") "x")
          (ipcFilename 5 "ab" ++ ".tmp") (ipcFilename 5 "ab")) (ipcFilename 5 "ab")
         = some "x") :=
  writeIpcFile_atomic [] 5 "ab" "x" _
    (List.mem_append_right _ (List.mem_singleton.mpr rfl)) _ (by decide)

/-! ### Claim C3: draining the inbound mailbox (`drainIpcInput`)

`drainIpcInput` lists the inbound directory, keeps the names ending in
`.json`, sorts them lexicographically, and processes them in order: each
file is read, parsed (`parse` is the JSON-parsing oracle; `none` models a
parse failure or unreadable file), unconditionally deleted, and its text
collected when it parsed to an entry of type `"message"` with truthy
(non-empty) `text`. -/

structure IpcMsg where
  typeField : Option String
  textField : Option String
deriving DecidableEq

/-- The text pushed for a parsed entry: `data.type === 'message' && data.text`
(a missing or empty `text` is falsy in JavaScript). -/
def msgText (m : IpcMsg) : Option String :=
  match m.typeField, m.textField with
  | some "message", some t => if t = "" then none else some t
  | _, _ => none

def strLe (a b : String) : Bool := decide (a ≤ b)

def sortedJsonNames (dir : Dir) : List String :=
  ((dir.map Prod.fst).filter hasJsonExt).mergeSort strLe

def drainList (parse : String → Option IpcMsg) :
    List String → Dir → List String × Dir
  | [], dir => ([], dir)
  | f :: rest, dir =>
    let t? := ((getFile dir f).bind parse).bind msgText
    let r := drainList parse rest (removeFile dir f)
    (match t? with | some t => t :: r.1 | none => r.1, r.2)

def drainIpcInput (parse : String → Option IpcMsg) (dir : Dir) :
    List String × Dir :=
  drainList parse (sortedJsonNames dir) dir

theorem removeFile_eq_filter (dir : Dir) (f : String) :
    removeFile dir f = dir.filter (fun p => decide (p.1 ≠ f)) := by
  induction dir with
  | nil => rfl
  | cons p rest ih =>
    cases p with
    | mk pn pc =>
      by_cases hp : pn = f
      · rw [removeFile, if_pos hp, ih]
        simp [List.filter, hp]
      · rw [removeFile, if_neg hp, ih]
        simp [List.filter, hp]

theorem foldl_removeFile (fs : List String) : ∀ dir : Dir,
    fs.foldl removeFile dir = dir.filter (fun p => decide (p.1 ∉ fs)) := by
  induction fs with
  | nil =>
    intro dir
    simp
  | cons f rest ih =>
    intro dir
    rw [List.foldl_cons, ih, removeFile_eq_filter, List.filter_filter]
    apply List.filter_congr
    intro p _
    by_cases h1 : p.1 = f <;> by_cases h2 : p.1 ∈ rest <;> simp [h1, h2]

theorem drainList_spec (parse : String → Option IpcMsg) :
    ∀ (fs : List String) (dir : Dir), fs.Nodup →
    drainList parse fs dir
      = (fs.filterMap (fun f => ((getFile dir f).bind parse).bind msgText),
         fs.foldl removeFile dir) := by
  intro fs
  induction fs with
  | nil =>
    intro dir _
    rfl
  | cons f rest ih =>
    intro dir hnd
    have hf : f ∉ rest := (List.nodup_cons.mp hnd).1
    have hrest : rest.Nodup := (List.nodup_cons.mp hnd).2
    have hsame : rest.filterMap
        (fun g => ((getFile (removeFile dir f) g).bind parse).bind msgText)
        = rest.filterMap (fun g => ((getFile dir g).bind parse).bind msgText) := by
      apply List.filterMap_congr
      intro g hg
      rw [getFile_removeFile dir f g (fun hc => hf (hc ▸ hg))]
    rw [drainList, ih (removeFile dir f) hrest]
    cases ht : ((getFile dir f).bind parse).bind msgText with
    | none => simp [List.filterMap_cons, ht, hsame]
    | some t => simp [List.filterMap_cons, ht, hsame]

theorem mem_sortedJsonNames (dir : Dir) (f : String) :
    f ∈ sortedJsonNames dir ↔ (f ∈ dir.map Prod.fst ∧ hasJsonExt f = true) := by
  unfold sortedJsonNames
  rw [List.mem_mergeSort, List.mem_filter]

theorem strLe_trans :
    ∀ a b c, strLe a b = true → strLe b c = true → strLe a c = true := by
  intro a b c hab hbc
  simp only [strLe, decide_eq_true_eq] at *
  exact le_trans hab hbc

theorem strLe_total : ∀ a b, (strLe a b || strLe b a) = true := by
  intro a b
  simp only [strLe, Bool.or_eq_true, decide_eq_true_eq]
  exact le_total a b

/-- C3: the worker drains its inbound mailbox by processing the `.json`
files in lexicographic filename order; every visited file is deleted
(including files that fail to parse, which are skipped, never retried), and
the returned texts are exactly the texts of the successfully parsed entries
of type `message` with non-empty text, in that filename order. -/
theorem drainIpcInput_spec (parse : String → Option IpcMsg) (dir : Dir)
    (hnd : (dir.map Prod.fst).Nodup) :
    drainIpcInput parse dir
      = ((sortedJsonNames dir).filterMap
           (fun f => ((getFile dir f).bind parse).bind msgText),
         dir.filter (fun p => !(hasJsonExt p.1)))
      ∧ List.Pairwise (fun a b : String => a ≤ b) (sortedJsonNames dir) := by
  constructor
  · have hsn : (sortedJsonNames dir).Nodup := by
      unfold sortedJsonNames
      exact ((List.mergeSort_perm _ strLe).nodup_iff).mpr (hnd.filter _)
    rw [drainIpcInput, drainList_spec parse _ dir hsn, foldl_removeFile]
    refine congrArg (Prod.mk _) ?_
    apply List.filter_congr
    intro p hp
    have hmem : p.1 ∈ dir.map Prod.fst := List.mem_map.mpr ⟨p, hp, rfl⟩
    by_cases hj : hasJsonExt p.1
    · simp [mem_sortedJsonNames, hmem, hj]
    · simp [mem_sortedJsonNames, hmem, hj]
  · exact List.Pairwise.imp
      (fun h => by simpa [strLe] using h)
      (List.sorted_mergeSort strLe_trans strLe_total _)

/-- A concrete inbound directory: one well-formed message, one malformed
file, one non-message entry, one file the reader must ignore. -/
def sampleInDir : Dir :=
  [("b.json", "good"), ("a.json", "bad"), ("c.txt", "good"), ("d.json", "other")]

/-- A concrete JSON-parsing oracle for `sampleInDir`. -/
def sampleParse (s : String) : Option IpcMsg :=
  if s = "good" then some ⟨some "message", some "hi"⟩
  else if s = "other" then some ⟨some "voice", some "x"⟩
  else none

/-- Witness for C3 on `sampleInDir`. -/
theorem drainIpcInput_spec_witness :
    drainIpcInput sampleParse sampleInDir
      = ((sortedJsonNames sampleInDir).filterMap
           (fun f => ((getFile sampleInDir f).bind sampleParse).bind msgText),
         sampleInDir.filter (fun p => !(hasJsonExt p.1)))
      ∧ List.Pairwise (fun a b : String => a ≤ b)
          (sortedJsonNames sampleInDir) :=
  drainIpcInput_spec sampleParse sampleInDir (by decide)

/-! ### Claim C6: total capability dispatch (`executeTool`)

`executeTool` is a `switch` on the tool name wrapped in a single
`try/catch`.  The body of each known case performs I/O and may throw; it is
modelled by the oracle `CapEnv` mapping the tool name and the raw argument
string to either a result string or a raised error.  The `default` case
returns an `Unknown tool` result, and the `catch` turns any raised error
into an `Error executing ...` result string. -/

def KNOWN_TOOLS : List String :=
  ["Bash", "Read", "Write", "Edit", "Glob", "Grep", "WebFetch",
   "send_message", "send_voice", "ask_boss", "schedule_task", "list_tasks",
   "list_workflows", "search_tools", "run_workflow",
   "pause_task", "resume_task", "cancel_task"]

inductive CapOutcome where
  | ok (result : String)
  | raised (msg : String)
deriving DecidableEq

abbrev CapEnv := String → String → CapOutcome

def dispatchTool (env : CapEnv) (name args : String) : CapOutcome :=
  if name ∈ KNOWN_TOOLS then env name args
  else .ok ("Unknown tool: " ++ name)

def executeTool (env : CapEnv) (name args : String) : String :=
  match dispatchTool env name args with
  | .ok r => r
  | .raised m => "Error executing " ++ name ++ ": " ++ m

/-! ### The worker loop as a state machine (`runQuery` + `main`)

One `stepW` application performs one observable step of the worker:
one iteration of the `for` loop inside `runQuery` (the `shouldClose` poll,
then one model call and its tool dispatches), or one transition of `main`'s
outer `while (true)` loop (the post-query `shouldClose` check, one poll of
`waitForIpcMessage`).  The model-call endpoint is the oracle
`oracle : Nat → ModelResult`, indexed by how many calls were made so far;
`WState.savedMsgs` is the turn sequence currently persisted by
`saveSession`, `WState.sentinel` is whether the IPC close-sentinel file
currently exists, and `WState.inbox` holds pending inbound mailbox texts. -/

structure ToolCall where
  id : String
  fnName : String
  arguments : String
deriving DecidableEq

inductive Msg where
  | user (content : String)
  | assistant (content : Option String) (toolCalls : List ToolCall)
  | tool (id : String) (content : String)
deriving DecidableEq

inductive ModelResult where
  | reply (content : Option String) (toolCalls : List ToolCall)
      (finishStop : Bool)
  | raised (msg : String)
deriving DecidableEq

def MAX_TOOL_ITERATIONS : Nat := 60

/-- `pat` matches at the head of the list. -/
def leadMatch : List Char → List Char → Bool
  | [], _ => true
  | _ :: _, [] => false
  | a :: as, b :: bs => a == b && leadMatch as bs

def containsSub (pat : List Char) : List Char → Bool
  | [] => leadMatch pat []
  | b :: bs => leadMatch pat (b :: bs) || containsSub pat bs

/-- JavaScript `s.includes(pat)`. -/
def strIncludes (s pat : String) : Bool :=
  containsSub pat.data s.data

/-- JavaScript `list.slice(-n)`: the last `n` elements. -/
def lastN {α : Type} (n : Nat) (l : List α) : List α :=
  l.drop (l.length - n)

/-- `if (msg.content?.trim()) lastText = msg.content.trim()`. -/
def updateLastText (content old : Option String) : Option String :=
  match content with
  | some c => if c.trim = "" then old else some c.trim
  | none => old

/-- One `role: "tool"` turn per capability call, in the order the model
returned them. -/
def toolResults (env : CapEnv) (tcs : List ToolCall) : List Msg :=
  tcs.map (fun tc => .tool tc.id (executeTool env tc.fnName tc.arguments))

inductive Phase where
  | inQuery (iter : Nat)
  | postQuery
  | waiting
  | exited
  | failed (err : String)
deriving DecidableEq

structure WState where
  phase : Phase
  msgs : List Msg
  lastText : Option String
  calls : Nat
  savedMsgs : Option (List Msg)
  sentinel : Bool
  inbox : List String
deriving DecidableEq

def stepW (oracle : Nat → ModelResult) (env : CapEnv) (st : WState) : WState :=
  match st.phase with
  | .exited => st
  | .failed _ => st
  | .inQuery iter =>
    if MAX_TOOL_ITERATIONS ≤ iter then
      { st with savedMsgs := some st.msgs, phase := .postQuery }
    else if st.sentinel then
      { st with sentinel := false, savedMsgs := some st.msgs,
                phase := .exited }
    else
      match oracle st.calls with
      | .raised m =>
        if strIncludes m "400" && decide (10 < st.msgs.length) then
          { st with msgs := lastN 10 st.msgs,
                    savedMsgs := some (lastN 10 st.msgs),
                    calls := st.calls + 1, phase := .inQuery (iter + 1) }
        else
          { st with calls := st.calls + 1, phase := .failed m }
      | .reply content tcs stop =>
        let msgs1 := st.msgs ++ [.assistant content tcs]
        let lt := updateLastText content st.lastText
        if tcs.isEmpty || stop then
          { st with msgs := msgs1, lastText := lt, savedMsgs := some msgs1,
                    calls := st.calls + 1, phase := .postQuery }
        else
          { st with msgs := msgs1 ++ toolResults env tcs, lastText := lt,
                    calls := st.calls + 1, phase := .inQuery (iter + 1) }
  | .postQuery =>
    if st.sentinel then { st with sentinel := false, phase := .exited }
    else { st with phase := .waiting }
  | .waiting =>
    if st.sentinel then { st with sentinel := false, phase := .exited }
    else
      match st.inbox with
      | [] => st
      | m :: rest =>
        { st with
            msgs := st.msgs ++ [.user (String.intercalate "\n" (m :: rest))],
            inbox := [], lastText := none, phase := .inQuery 0 }

def iterW (oracle : Nat → ModelResult) (env : CapEnv) :
    Nat → WState → WState
  | 0, st => st
  | n + 1, st => iterW oracle env n (stepW oracle env st)

/-- Worker startup (`main`, after parsing stdin): any pre-existing close
sentinel is unlinked before the loop starts — whatever `staleSentinel`
(whether the sentinel file was left over on disk) was, the worker starts
with no sentinel; pending inbound texts are appended to the first prompt,
and `runQuery` pushes the user turn. -/
def initW (_staleSentinel : Bool) (prior : List Msg) (prompt : String)
    (pending : List String) : WState :=
  { phase := .inQuery 0
    msgs := prior ++ [.user (if pending.isEmpty then prompt
      else prompt ++ "\n" ++ String.intercalate "\n" pending)]
    lastText := none
    calls := 0
    savedMsgs := none
    sentinel := false
    inbox := [] }

/-- Whenever the worker is past a query (`postQuery`) or idle (`waiting`),
`runQuery` has already persisted the full current turn sequence: every exit
path of `runQuery` calls `saveSession`. -/
def SavedInv (st : WState) : Prop :=
  (st.phase = .postQuery ∨ st.phase = .waiting) → st.savedMsgs = some st.msgs

theorem stepW_inQuery_max (oracle : Nat → ModelResult) (env : CapEnv)
    (st : WState) (i : Nat) (hph : st.phase = .inQuery i)
    (hmax : MAX_TOOL_ITERATIONS ≤ i) :
    stepW oracle env st
      = { st with savedMsgs := some st.msgs, phase := .postQuery } := by
  cases st
  simp only at hph
  subst hph
  simp only [stepW, if_pos hmax]

theorem stepW_inQuery_sentinel (oracle : Nat → ModelResult) (env : CapEnv)
    (st : WState) (i : Nat) (hph : st.phase = .inQuery i)
    (hmax : ¬ MAX_TOOL_ITERATIONS ≤ i) (hs : st.sentinel = true) :
    stepW oracle env st
      = { st with sentinel := false, savedMsgs := some st.msgs,
                  phase := .exited } := by
  cases st
  simp only at hph hs
  subst hph
  simp only [stepW, if_neg hmax, hs, if_true]

theorem stepW_inQuery_raised_trim (oracle : Nat → ModelResult) (env : CapEnv)
    (st : WState) (i : Nat) (m : String) (hph : st.phase = .inQuery i)
    (hmax : ¬ MAX_TOOL_ITERATIONS ≤ i) (hs : st.sentinel = false)
    (ho : oracle st.calls = .raised m)
    (hc : (strIncludes m "400" && decide (10 < st.msgs.length)) = true) :
    stepW oracle env st
      = { st with msgs := lastN 10 st.msgs,
                  savedMsgs := some (lastN 10 st.msgs),
                  calls := st.calls + 1, phase := .inQuery (i + 1) } := by
  cases st
  simp only at hph hs ho hc
  subst hph
  simp only [stepW, if_neg hmax, hs, Bool.false_eq_true, if_false, ho, hc,
    if_true]

theorem stepW_inQuery_raised_propagate (oracle : Nat → ModelResult)
    (env : CapEnv) (st : WState) (i : Nat) (m : String)
    (hph : st.phase = .inQuery i) (hmax : ¬ MAX_TOOL_ITERATIONS ≤ i)
    (hs : st.sentinel = false) (ho : oracle st.calls = .raised m)
    (hc : (strIncludes m "400" && decide (10 < st.msgs.length)) = false) :
    stepW oracle env st
      = { st with calls := st.calls + 1, phase := .failed m } := by
  cases st
  simp only at hph hs ho hc
  subst hph
  simp only [stepW, if_neg hmax, hs, Bool.false_eq_true, if_false, ho, hc]

theorem stepW_postQuery (oracle : Nat → ModelResult) (env : CapEnv)
    (st : WState) (hph : st.phase = .postQuery) :
    stepW oracle env st
      = (if st.sentinel then { st with sentinel := false, phase := .exited }
         else { st with phase := .waiting }) := by
  cases st
  simp only at hph
  subst hph
  simp only [stepW]

theorem stepW_waiting_sentinel (oracle : Nat → ModelResult) (env : CapEnv)
    (st : WState) (hph : st.phase = .waiting) (hs : st.sentinel = true) :
    stepW oracle env st = { st with sentinel := false, phase := .exited } := by
  cases st
  simp only at hph hs
  subst hph
  simp only [stepW, hs, if_true]

theorem stepW_exited (oracle : Nat → ModelResult) (env : CapEnv)
    (st : WState) (hph : st.phase = .exited) :
    stepW oracle env st = st := by
  cases st
  simp only at hph
  subst hph
  simp only [stepW]

theorem iterW_exited (oracle : Nat → ModelResult) (env : CapEnv)
    (st : WState) (h : st.phase = .exited) :
    ∀ n, iterW oracle env n st = st := by
  intro n
  induction n with
  | zero => rfl
  | succ k ih => rw [iterW, stepW_exited oracle env st h, ih]

/-- C4: once the shutdown sentinel is present, it takes effect at the
worker's next poll — whichever poll site comes next (the per-iteration
check inside `runQuery`, `main`'s post-query check, or the idle
`waitForIpcMessage` poll).  Within two steps the worker is exited, it has
made no further model calls, the saved session holds the full turn
sequence, and it stays exited forever. -/
theorem sentinel_shutdown (oracle : Nat → ModelResult) (env : CapEnv)
    (st : WState) (hsent : st.sentinel = true) (hsaved : SavedInv st)
    (hph : (∃ i, st.phase = .inQuery i) ∨ st.phase = .postQuery ∨
      st.phase = .waiting) :
    (iterW oracle env 2 st).phase = .exited
    ∧ (iterW oracle env 2 st).calls = st.calls
    ∧ (iterW oracle env 2 st).msgs = st.msgs
    ∧ (iterW oracle env 2 st).savedMsgs = some st.msgs
    ∧ ∀ n, iterW oracle env n (iterW oracle env 2 st)
        = iterW oracle env 2 st := by
  have h2 : iterW oracle env 2 st
      = stepW oracle env (stepW oracle env st) := rfl
  have key : (iterW oracle env 2 st).phase = .exited
      ∧ (iterW oracle env 2 st).calls = st.calls
      ∧ (iterW oracle env 2 st).msgs = st.msgs
      ∧ (iterW oracle env 2 st).savedMsgs = some st.msgs := by
    rcases hph with ⟨i, hq⟩ | hq | hq
    · by_cases hmax : MAX_TOOL_ITERATIONS ≤ i
      · rw [h2, stepW_inQuery_max oracle env st i hq hmax,
          stepW_postQuery oracle env _ rfl]
        simp [hsent]
      · rw [h2, stepW_inQuery_sentinel oracle env st i hq hmax hsent,
          stepW_exited oracle env _ rfl]
        exact ⟨rfl, rfl, rfl, rfl⟩
    · rw [h2, stepW_postQuery oracle env st hq]
      simp only [hsent, if_true]
      rw [stepW_exited oracle env _ rfl]
      exact ⟨rfl, rfl, rfl, hsaved (Or.inl hq)⟩
    · rw [h2, stepW_waiting_sentinel oracle env st hq hsent,
        stepW_exited oracle env _ rfl]
      exact ⟨rfl, rfl, rfl, hsaved (Or.inr hq)⟩
  exact ⟨key.1, key.2.1, key.2.2.1, key.2.2.2,
    iterW_exited oracle env _ key.1⟩

/-- Witness for C4: a worker one iteration into a query, with the sentinel
just written. -/
theorem sentinel_shutdown_witness :
    (iterW (fun _ => .raised "e") (fun _ _ => .ok "r") 2
        { phase := .inQuery 1, msgs := [.user "hi"], lastText := none,
          calls := 1, savedMsgs := none, sentinel := true,
          inbox := [] }).phase = .exited
    ∧ (iterW (fun _ => .raised "e") (fun _ _ => .ok "r") 2
        { phase := .inQuery 1, msgs := [.user "hi"], lastText := none,
          calls := 1, savedMsgs := none, sentinel := true,
          inbox := [] }).calls = 1
    ∧ (iterW (fun _ => .raised "e") (fun _ _ => .ok "r") 2
        { phase := .inQuery 1, msgs := [.user "hi"], lastText := none,
          calls := 1, savedMsgs := none, sentinel := true,
          inbox := [] }).msgs = [.user "hi"]
    ∧ (iterW (fun _ => .raised "e") (fun _ _ => .ok "r") 2
        { phase := .inQuery 1, msgs := [.user "hi"], lastText := none,
          calls := 1, savedMsgs := none, sentinel := true,
          inbox := [] }).savedMsgs = some [.user "hi"]
    ∧ ∀ n, iterW (fun _ => .raised "e") (fun _ _ => .ok "r") n
        (iterW (fun _ => .raised "e") (fun _ _ => .ok "r") 2
          { phase := .inQuery 1, msgs := [.user "hi"], lastText := none,
            calls := 1, savedMsgs := none, sentinel := true, inbox := [] })
        = iterW (fun _ => .raised "e") (fun _ _ => .ok "r") 2
          { phase := .inQuery 1, msgs := [.user "hi"], lastText := none,
            calls := 1, savedMsgs := none, sentinel := true, inbox := [] } :=
  sentinel_shutdown _ _ _ rfl (by intro h; rcases h with h | h <;> cases h)
    (Or.inl ⟨1, rfl⟩)

theorem length_lastN_ten {α : Type} (l : List α) (h : 10 < l.length) :
    (lastN 10 l).length = 10 := by
  rw [lastN, List.length_drop]
  omega

/-- C5 (amended): when a model call fails with an error whose message
contains `400` while the history holds more than 10 messages, the loop
truncates the history to the most recent 10 messages, saves the session,
and — provided the iteration budget of 60 is not yet exhausted — retries
the call once at the next iteration; if that retry also fails the error
propagates (the trimmed history has length 10, so the trim branch cannot
fire again).  If the 400 strikes on the final iteration, the loop ends
normally without retrying and without propagating.  A 400 with 10 or fewer
messages in history propagates immediately. -/
theorem trim_retry_spec (oracle : Nat → ModelResult) (env : CapEnv)
    (st : WState) (i : Nat) (m : String)
    (hph : st.phase = .inQuery i) (hi : i < MAX_TOOL_ITERATIONS)
    (hsent : st.sentinel = false)
    (ho : oracle st.calls = .raised m)
    (h400 : strIncludes m "400" = true) :
    (st.msgs.length ≤ 10 →
      stepW oracle env st
        = { st with calls := st.calls + 1, phase := .failed m })
    ∧ (10 < st.msgs.length →
      stepW oracle env st
        = { st with msgs := lastN 10 st.msgs,
                    savedMsgs := some (lastN 10 st.msgs),
                    calls := st.calls + 1, phase := .inQuery (i + 1) })
    ∧ (10 < st.msgs.length → i + 1 < MAX_TOOL_ITERATIONS →
      ∀ m', oracle (st.calls + 1) = .raised m' →
        iterW oracle env 2 st
          = { st with msgs := lastN 10 st.msgs,
                      savedMsgs := some (lastN 10 st.msgs),
                      calls := st.calls + 2, phase := .failed m' })
    ∧ (10 < st.msgs.length → i + 1 = MAX_TOOL_ITERATIONS →
      iterW oracle env 2 st
        = { st with msgs := lastN 10 st.msgs,
                    savedMsgs := some (lastN 10 st.msgs),
                    calls := st.calls + 1, phase := .postQuery }) := by
  have hmax : ¬ MAX_TOOL_ITERATIONS ≤ i := Nat.not_le.mpr hi
  have htrim : 10 < st.msgs.length →
      stepW oracle env st
        = { st with msgs := lastN 10 st.msgs,
                    savedMsgs := some (lastN 10 st.msgs),
                    calls := st.calls + 1, phase := .inQuery (i + 1) } := by
    intro hgt
    exact stepW_inQuery_raised_trim oracle env st i m hph hmax hsent ho
      (by rw [h400, decide_eq_true hgt, Bool.and_self])
  refine ⟨?_, htrim, ?_, ?_⟩
  · intro hle
    exact stepW_inQuery_raised_propagate oracle env st i m hph hmax hsent ho
      (by rw [decide_eq_false (Nat.not_lt.mpr hle), Bool.and_false])
  · intro hgt hi1 m' ho'
    have h2 : iterW oracle env 2 st
        = stepW oracle env (stepW oracle env st) := rfl
    have hl10 : (lastN 10 st.msgs).length = 10 := length_lastN_ten _ hgt
    have hc : (strIncludes m' "400"
        && decide (10 < (lastN 10 st.msgs).length)) = false := by
      rw [hl10, show decide (10 < 10) = false from rfl, Bool.and_false]
    have hprop := stepW_inQuery_raised_propagate oracle env
      { st with msgs := lastN 10 st.msgs,
                savedMsgs := some (lastN 10 st.msgs),
                calls := st.calls + 1, phase := .inQuery (i + 1) }
      (i + 1) m' rfl (Nat.not_le.mpr hi1) hsent ho' hc
    rw [h2, htrim hgt]
    exact hprop
  · intro hgt hi1
    have h2 : iterW oracle env 2 st
        = stepW oracle env (stepW oracle env st) := rfl
    have hm := stepW_inQuery_max oracle env
      { st with msgs := lastN 10 st.msgs,
                savedMsgs := some (lastN 10 st.msgs),
                calls := st.calls + 1, phase := .inQuery (i + 1) }
      (i + 1) rfl (le_of_eq hi1.symm)
    rw [h2, htrim hgt]
    exact hm

/-- Witness for C5 (amended), exercising the immediate-propagation arm. -/
theorem trim_retry_spec_witness :
    stepW (fun _ => .raised "HTTP 400") (fun _ _ => .ok "r")
        { phase := .inQuery 0, msgs := [.user "p"], lastText := none,
          calls := 0, savedMsgs := none, sentinel := false, inbox := [] }
      = { phase := .failed "HTTP 400", msgs := [.user "p"], lastText := none,
          calls := 1, savedMsgs := none, sentinel := false, inbox := [] } :=
  (trim_retry_spec (fun _ => .raised "HTTP 400") (fun _ _ => .ok "r")
    { phase := .inQuery 0, msgs := [.user "p"], lastText := none,
      calls := 0, savedMsgs := none, sentinel := false, inbox := [] }
    0 "HTTP 400" rfl (by decide) rfl rfl (by decide)).1 (by decide)

/-- A run in which the model replies with one tool call 59 times and then
rejects the 60th call with a 400. -/
def cOracle : Nat → ModelResult := fun k =>
  if k < 59 then .reply none [⟨"t", "Bash", "x"⟩] false
  else .raised "400 bad"

def cEnv : CapEnv := fun _ _ => .ok "ok"

def cSt : WState := initW false [] "p" []

set_option maxRecDepth 100000 in
/-- Counterexample to C5 as stated: when the 400 strikes on the final
(60th) iteration with 119 messages in history, the loop trims and saves
but neither retries nor propagates: the worker ends up idle in `waiting`
having made exactly 60 model calls (the failing call was call 59; a retry
would be call 60, making 61 calls), and stays there. -/
theorem trim_retry_counterexample :
    cOracle ((iterW cOracle cEnv 59 cSt).calls) = .raised "400 bad"
    ∧ 10 < (iterW cOracle cEnv 59 cSt).msgs.length
    ∧ (iterW cOracle cEnv 59 cSt).phase = .inQuery 59
    ∧ (iterW cOracle cEnv 62 cSt).phase = .waiting
    ∧ (iterW cOracle cEnv 62 cSt).calls = 60
    ∧ stepW cOracle cEnv (iterW cOracle cEnv 62 cSt)
        = iterW cOracle cEnv 62 cSt := by
  decide

/-- C6: `executeTool` is total: the `switch` is wrapped in a `try/catch`
that turns any raised capability-dispatch error into a result string
describing the error, and an unknown tool name yields an `Unknown tool`
result; no dispatch error ever escapes `executeTool`. -/
theorem executeTool_total (env : CapEnv) (name args : String) :
    (∀ m, dispatchTool env name args = .raised m →
      executeTool env name args = "Error executing " ++ name ++ ": " ++ m)
    ∧ (∀ r, dispatchTool env name args = .ok r →
      executeTool env name args = r)
    ∧ (name ∉ KNOWN_TOOLS →
      executeTool env name args = "Unknown tool: " ++ name) := by
  refine ⟨?_, ?_, ?_⟩
  · intro m h
    rw [executeTool, h]
  · intro r h
    rw [executeTool, h]
  · intro h
    rw [executeTool, dispatchTool, if_neg h]

/-- Witness for C6: a raising capability and an unknown tool name. -/
theorem executeTool_total_witness :
    executeTool (fun _ _ => .raised "boom") "Bash" "args"
      = "Error executing " ++ "Bash" ++ ": " ++ "boom"
    ∧ executeTool (fun _ _ => .ok "done") "frobnicate" "args"
      = "Unknown tool: " ++ "frobnicate" :=
  ⟨(executeTool_total (fun _ _ => .raised "boom") "Bash" "args").1 "boom"
      (by decide),
   (executeTool_total (fun _ _ => .ok "done") "frobnicate" "args").2.2
      (by decide)⟩

/-! ### Claim C10: sentinel lifecycle (`main` startup and `shouldClose`)

`main` unconditionally unlinks any pre-existing close sentinel before its
loop (modelled by `initW` starting with `sentinel := false`), and
`shouldClose` unlinks the sentinel file whenever it observes one.
`sentinelTrues` counts, along a trace of host sentinel writes and worker
`shouldClose` polls, how many polls observe the sentinel — each such
observation is what triggers a shutdown. -/

inductive SentinelOp where
  | write
  | poll
deriving DecidableEq

def sentinelTrues : List SentinelOp → Bool → Nat
  | [], _ => 0
  | .write :: ops, _ => sentinelTrues ops true
  | .poll :: ops, b => (if b then 1 else 0) + sentinelTrues ops false

def countWrites : List SentinelOp → Nat
  | [] => 0
  | .write :: ops => countWrites ops + 1
  | .poll :: ops => countWrites ops

theorem sentinelTrues_le : ∀ (ops : List SentinelOp) (b : Bool),
    sentinelTrues ops b ≤ countWrites ops + (if b then 1 else 0) := by
  intro ops
  induction ops with
  | nil =>
    intro b
    exact Nat.zero_le _
  | cons op rest ih =>
    intro b
    cases op with
    | write =>
      have hh : sentinelTrues rest true ≤ countWrites rest + 1 := by
        simpa using ih true
      rw [sentinelTrues, countWrites]
      cases b
      · show sentinelTrues rest true ≤ countWrites rest + 1 + 0
        omega
      · show sentinelTrues rest true ≤ countWrites rest + 1 + 1
        omega
    | poll =>
      have hh : sentinelTrues rest false ≤ countWrites rest := by
        simpa using ih false
      rw [sentinelTrues, countWrites]
      cases b
      · show 0 + sentinelTrues rest false ≤ countWrites rest + 0
        omega
      · show 1 + sentinelTrues rest false ≤ countWrites rest + 1
        omega

/-- C10: at worker startup any pre-existing shutdown sentinel is deleted
before the first turn, so a stale sentinel never terminates a fresh worker
(without a new write, no poll ever observes a sentinel), and because
`shouldClose` deletes the sentinel whenever it observes one, each sentinel
write triggers at most one shutdown. -/
theorem sentinel_consumed (stale : Bool) (prior : List Msg) (prompt : String)
    (pending : List String) (ops : List SentinelOp) :
    (initW stale prior prompt pending).sentinel = false
    ∧ sentinelTrues ops ((initW stale prior prompt pending).sentinel)
        ≤ countWrites ops
    ∧ (countWrites ops = 0 →
        sentinelTrues ops ((initW stale prior prompt pending).sentinel)
          = 0) := by
  have h : sentinelTrues ops false ≤ countWrites ops := by
    simpa using sentinelTrues_le ops false
  refine ⟨rfl, ?_, ?_⟩
  · show sentinelTrues ops false ≤ countWrites ops
    omega
  · intro h0
    show sentinelTrues ops false = 0
    omega

/-- Witness for C10: two polls after a stale startup observe nothing. -/
theorem sentinel_consumed_witness :
    sentinelTrues [.poll, .poll] ((initW true [] "p" []).sentinel) = 0 :=
  (sentinel_consumed true [] "p" [] [.poll, .poll]).2.2 rfl

/-! ### Claim C7: semantic workflow search (`semanticSearch`)

`semanticSearch` scores every cached embedding against the query embedding
with cosine similarity, drops entries whose name is no longer in the
registry (`registry.find(...)` returns `undefined`) or whose score is not
above `0.3`, sorts descending by score (`(a, b) => b.score - a.score`) and
returns the first `topK = 4` entries.  The floating-point cosine itself is
not exactly translatable; it is the oracle parameter `cos`, and embeddings
are modelled as rational vectors. -/

structure RegistryEntry where
  name : String
  description : String
  run : String
  args : Option (List String)
deriving DecidableEq

structure CacheEntry where
  name : String
  embedding : List ℚ
deriving DecidableEq

structure EmbeddingCache where
  model : String
  entries : List CacheEntry
deriving DecidableEq

def scoredList (cos : List ℚ → List ℚ → ℚ) (qv : List ℚ)
    (cache : EmbeddingCache) (registry : List RegistryEntry) :
    List (RegistryEntry × ℚ) :=
  ((cache.entries.map (fun c =>
      (registry.find? (fun e => decide (e.name = c.name)),
       cos qv c.embedding))).filterMap
    (fun s => s.1.bind
      (fun e => if (3 : ℚ)/10 < s.2 then some (e, s.2) else none))).mergeSort
    (fun a b => decide (b.2 ≤ a.2))

def semanticSearch (cos : List ℚ → List ℚ → ℚ) (qv : List ℚ)
    (cache : EmbeddingCache) (registry : List RegistryEntry) :
    List RegistryEntry :=
  ((scoredList cos qv cache registry).take 4).map Prod.fst

theorem mem_scoredList (cos : List ℚ → List ℚ → ℚ) (qv : List ℚ)
    (cache : EmbeddingCache) (registry : List RegistryEntry)
    (p : RegistryEntry × ℚ) (hp : p ∈ scoredList cos qv cache registry) :
    p.1 ∈ registry
    ∧ (∃ c ∈ cache.entries, p.1.name = c.name ∧ p.2 = cos qv c.embedding)
    ∧ (3 : ℚ)/10 < p.2 := by
  rw [scoredList, List.mem_mergeSort] at hp
  obtain ⟨s, hs, hsome⟩ := List.mem_filterMap.mp hp
  obtain ⟨c, hc, hceq⟩ := List.mem_map.mp hs
  cases hceq
  cases hfind : registry.find? (fun x => decide (x.name = c.name)) with
  | none =>
    rw [hfind, Option.none_bind] at hsome
    cases hsome
  | some e =>
    rw [hfind, Option.some_bind] at hsome
    by_cases hlt :
        (3 : ℚ)/10 < (registry.find? (fun x => decide (x.name = c.name)),
          cos qv c.embedding).2
    · rw [if_pos hlt] at hsome
      simp only at hlt
      injection hsome with hpe
      have hmem : e ∈ registry := List.mem_of_find?_eq_some hfind
      have hname : e.name = c.name := by
        have := List.find?_some hfind
        simpa using this
      rw [← hpe]
      exact ⟨hmem, ⟨c, hc, hname, rfl⟩, hlt⟩
    · rw [if_neg hlt] at hsome
      cases hsome

theorem scoreDesc_trans : ∀ a b c : RegistryEntry × ℚ,
    (fun x y : RegistryEntry × ℚ => decide (y.2 ≤ x.2)) a b = true →
    (fun x y : RegistryEntry × ℚ => decide (y.2 ≤ x.2)) b c = true →
    (fun x y : RegistryEntry × ℚ => decide (y.2 ≤ x.2)) a c = true := by
  intro a b c hab hbc
  simp only [decide_eq_true_eq] at *
  exact le_trans hbc hab

theorem scoreDesc_total : ∀ a b : RegistryEntry × ℚ,
    ((fun x y : RegistryEntry × ℚ => decide (y.2 ≤ x.2)) a b
      || (fun x y : RegistryEntry × ℚ => decide (y.2 ≤ x.2)) b a) = true := by
  intro a b
  simp only [Bool.or_eq_true, decide_eq_true_eq]
  exact le_total b.2 a.2

/-- C7: `semanticSearch` returns at most 4 entries; every returned entry is
a member of the registry and its cached embedding scores strictly above 0.3
against the query embedding; and the underlying ranked list the result is
cut from is ordered by non-increasing similarity. -/
theorem semanticSearch_spec (cos : List ℚ → List ℚ → ℚ) (qv : List ℚ)
    (cache : EmbeddingCache) (registry : List RegistryEntry) :
    (semanticSearch cos qv cache registry).length ≤ 4
    ∧ (∀ e ∈ semanticSearch cos qv cache registry,
        e ∈ registry ∧ ∃ c ∈ cache.entries,
          e.name = c.name ∧ (3 : ℚ)/10 < cos qv c.embedding)
    ∧ semanticSearch cos qv cache registry
        = ((scoredList cos qv cache registry).take 4).map Prod.fst
    ∧ ((scoredList cos qv cache registry).take 4).Pairwise
        (fun a b => b.2 ≤ a.2) := by
  refine ⟨?_, ?_, rfl, ?_⟩
  · rw [semanticSearch, List.length_map]
    exact List.length_take_le _ _
  · intro e he
    rw [semanticSearch] at he
    obtain ⟨p, hp, hpe⟩ := List.mem_map.mp he
    have hp2 : p ∈ scoredList cos qv cache registry :=
      List.mem_of_mem_take hp
    obtain ⟨hmem, ⟨c, hc, hname, hscore⟩, hlt⟩ :=
      mem_scoredList cos qv cache registry p hp2
    subst hpe
    refine ⟨hmem, c, hc, hname, ?_⟩
    rw [← hscore]
    exact hlt
  · have hsorted := List.sorted_mergeSort scoreDesc_trans scoreDesc_total
      (((cache.entries.map (fun c =>
          (registry.find? (fun e => decide (e.name = c.name)),
           cos qv c.embedding))).filterMap
        (fun s => s.1.bind
          (fun e => if (3 : ℚ)/10 < s.2 then some (e, s.2) else none))))
    have hpw : (scoredList cos qv cache registry).Pairwise
        (fun a b => b.2 ≤ a.2) := by
      rw [scoredList]
      exact hsorted.imp (fun h => by simpa using h)
    exact hpw.sublist (List.take_sublist _ _)

def wfEntry : RegistryEntry :=
  { name := "morning-briefing", description := "Daily weather and news summary",
    run := "./morning.sh", args := none }

def wfRegistry : List RegistryEntry := [wfEntry]

def wfCache : EmbeddingCache :=
  { model := "Xenova/all-MiniLM-L6-v2",
    entries := [{ name := "morning-briefing", embedding := [1] }] }

def wfCos : List ℚ → List ℚ → ℚ := fun _ _ => 9/10

/-- Witness for C7 on a one-entry registry whose entry scores 0.9. -/
theorem semanticSearch_spec_witness :
    wfEntry ∈ wfRegistry
    ∧ ∃ c ∈ wfCache.entries,
        wfEntry.name = c.name ∧ (3 : ℚ)/10 < wfCos [1] c.embedding :=
  (semanticSearch_spec wfCos [1] wfCache wfRegistry).2.1 wfEntry (by
    simp +decide [semanticSearch, scoredList, wfCache, wfRegistry, wfEntry,
      wfCos, List.mergeSort_singleton,
      show (3 : ℚ)/10 < 9/10 from by norm_num])

/-! ### Claim C8: the workflow embedding cache (`loadEmbeddingCache`)

`loadEmbeddingCache` reuses the cached file when its recorded model equals
`EMBED_MODEL` and every current registry entry name appears among the
cached entry names; otherwise it re-embeds every `name: description`
string.  The embedding model itself is the oracle `embedF`. -/

def EMBED_MODEL : String := "Xenova/all-MiniLM-L6-v2"

def buildCache (embedF : String → List ℚ) (registry : List RegistryEntry) :
    EmbeddingCache :=
  { model := EMBED_MODEL
    entries := registry.map (fun e =>
      { name := e.name
        embedding := embedF (e.name ++ ": " ++ e.description) }) }

/-- `cached.model === EMBED_MODEL && allCovered`. -/
def cacheCovers (c : EmbeddingCache) (registry : List RegistryEntry) : Bool :=
  decide (c.model = EMBED_MODEL)
    && registry.all (fun e => c.entries.any (fun ce => decide (ce.name = e.name)))

def loadEmbeddingCache (embedF : String → List ℚ)
    (cached : Option EmbeddingCache) (registry : List RegistryEntry) :
    EmbeddingCache :=
  match cached with
  | some c => if cacheCovers c registry then c else buildCache embedF registry
  | none => buildCache embedF registry

/-- C8 (amended): the cache is reused exactly when its recorded model
identifier matches the current embedding model and every registry entry
name is present in it; otherwise (or when no cache exists) every entry is
recomputed from the current `name: description` strings.  A change to an
entry's description alone, or the removal of an entry from the registry,
does not invalidate the cache. -/
theorem loadEmbeddingCache_spec (embedF : String → List ℚ)
    (registry : List RegistryEntry) :
    (∀ c, (c.model = EMBED_MODEL ∧
        ∀ e ∈ registry, ∃ ce ∈ c.entries, ce.name = e.name) →
      loadEmbeddingCache embedF (some c) registry = c)
    ∧ (∀ c, ¬ (c.model = EMBED_MODEL ∧
        ∀ e ∈ registry, ∃ ce ∈ c.entries, ce.name = e.name) →
      loadEmbeddingCache embedF (some c) registry
        = buildCache embedF registry)
    ∧ loadEmbeddingCache embedF none registry = buildCache embedF registry := by
  have hiff : ∀ c : EmbeddingCache, cacheCovers c registry = true ↔
      (c.model = EMBED_MODEL ∧
        ∀ e ∈ registry, ∃ ce ∈ c.entries, ce.name = e.name) := by
    intro c
    simp only [cacheCovers, Bool.and_eq_true, decide_eq_true_eq,
      List.all_eq_true, List.any_eq_true]
  refine ⟨?_, ?_, rfl⟩
  · intro c h
    show (if cacheCovers c registry then c else buildCache embedF registry) = c
    rw [if_pos ((hiff c).mpr h)]
  · intro c h
    show (if cacheCovers c registry then c else buildCache embedF registry)
      = buildCache embedF registry
    rw [if_neg (fun hc => h ((hiff c).mp hc))]

def embedF0 : String → List ℚ := fun s => if s = "a: newer" then [8] else [6]

def registryA : List RegistryEntry :=
  [{ name := "a", description := "newer", run := "run.sh", args := none }]

def oldCacheA : EmbeddingCache :=
  { model := EMBED_MODEL, entries := [{ name := "a", embedding := [6] }] }

/-- Counterexample to C8 as stated: the entry's description has changed
(embedding `"a: newer"` now gives `[8]`), yet the cache is reused with the
stale vector `[6]`: a description change does not invalidate the cache. -/
theorem loadEmbeddingCache_counterexample :
    loadEmbeddingCache embedF0 (some oldCacheA) registryA = oldCacheA
    ∧ (buildCache embedF0 registryA).entries ≠ oldCacheA.entries := by
  refine ⟨?_, ?_⟩ <;> decide

/-- Witness for C8 (amended) at a concrete covered cache. -/
theorem loadEmbeddingCache_spec_witness :
    loadEmbeddingCache embedF0 (some oldCacheA) registryA = oldCacheA :=
  (loadEmbeddingCache_spec embedF0 registryA).1 oldCacheA (by decide)

/-! ### Claim C9: session persistence (`loadSession` / `saveSession`)

`saveSession` sets `updatedAt` and overwrites
`~/.stingyclaw/sessions/{id}.json` with the full serialized session;
`loadSession` reads the file for an id and parses it.  `encode`/`decode`
are the `JSON.stringify`/`JSON.parse` oracle pair and `β` is the type of
serialized file contents; the session store is keyed by session id. -/

structure SessionRec (σ : Type) where
  id : String
  messages : List σ
  createdAt : String
  updatedAt : String
deriving DecidableEq

def storeGet {β : Type} : List (String × β) → String → Option β
  | [], _ => none
  | (n, c) :: rest, f => if n = f then some c else storeGet rest f

def storeRemove {β : Type} : List (String × β) → String → List (String × β)
  | [], _ => []
  | (n, c) :: rest, f =>
    if n = f then storeRemove rest f else (n, c) :: storeRemove rest f

def storeSet {β : Type} (st : List (String × β)) (f : String) (c : β) :
    List (String × β) :=
  (f, c) :: storeRemove st f

def loadSession {σ β : Type} (decode : β → Option (SessionRec σ))
    (store : List (String × β)) (id : String) : Option (SessionRec σ) :=
  (storeGet store id).bind decode

def saveSession {σ β : Type} (encode : SessionRec σ → β) (now : String)
    (store : List (String × β)) (s : SessionRec σ) : List (String × β) :=
  storeSet store s.id (encode { s with updatedAt := now })

theorem storeGet_storeRemove {β : Type} (st : List (String × β))
    (f n : String) (h : n ≠ f) :
    storeGet (storeRemove st f) n = storeGet st n := by
  induction st with
  | nil => rfl
  | cons p rest ih =>
    cases p with
    | mk pn pc =>
      by_cases hp : pn = f
      · rw [storeRemove, if_pos hp, ih]
        have hpn : pn ≠ n := fun hc => h (hc.symm.trans hp)
        rw [storeGet, if_neg hpn]
      · rw [storeRemove, if_neg hp]
        by_cases hn : pn = n
        · rw [storeGet, if_pos hn, storeGet, if_pos hn]
        · rw [storeGet, if_neg hn, storeGet, if_neg hn, ih]

theorem storeGet_storeSet {β : Type} (st : List (String × β))
    (f : String) (c : β) (n : String) :
    storeGet (storeSet st f c) n
      = if f = n then some c else storeGet st n := by
  by_cases h : f = n
  · rw [storeSet, storeGet, if_pos h, if_pos h]
  · rw [storeSet, storeGet, if_neg h, if_neg h]
    exact storeGet_storeRemove st f n (fun hc => h hc.symm)

/-- C9: saving a session and loading it back by the same id round-trips.
Save is a full overwrite: whatever bytes were stored under the id before,
after `saveSession` the store holds exactly the serialization of the full
accumulated turn sequence (with `updatedAt` refreshed), other ids are
untouched, and the next `loadSession` returns a session whose message
sequence is exactly the one saved. -/
theorem session_roundtrip {σ β : Type} (encode : SessionRec σ → β)
    (decode : β → Option (SessionRec σ)) (now : String)
    (store : List (String × β)) (s : SessionRec σ)
    (h : decode (encode { s with updatedAt := now })
        = some { s with updatedAt := now }) :
    storeGet (saveSession encode now store s) s.id
        = some (encode { s with updatedAt := now })
    ∧ (∀ k, k ≠ s.id →
        storeGet (saveSession encode now store s) k = storeGet store k)
    ∧ loadSession decode (saveSession encode now store s) s.id
        = some { s with updatedAt := now }
    ∧ (loadSession decode (saveSession encode now store s) s.id).map
        (fun t => t.messages) = some s.messages := by
  have hget : storeGet (saveSession encode now store s) s.id
      = some (encode { s with updatedAt := now }) := by
    rw [saveSession, storeGet_storeSet, if_pos rfl]
  refine ⟨hget, ?_, ?_, ?_⟩
  · intro k hk
    rw [saveSession, storeGet_storeSet, if_neg (fun hc => hk hc.symm)]
  · rw [loadSession, hget, Option.some_bind, h]
  · rw [loadSession, hget, Option.some_bind, h]
    rfl

def sampleSession : SessionRec Nat :=
  { id := "s1", messages := [1, 2], createdAt := "c0", updatedAt := "u0" }

/-- Witness for C9 with the identity codec on a concrete session. -/
theorem session_roundtrip_witness :
    loadSession some
        (saveSession (fun t => t) "t1"
          ([] : List (String × SessionRec Nat)) sampleSession)
        sampleSession.id
      = some { sampleSession with updatedAt := "t1" } :=
  (session_roundtrip (fun t => t) some "t1" [] sampleSession rfl).2.2.1

/-! ### Claim C1: at most one worker per conversation (Queue Controller) -/

/-- Modelled from the spec: the Queue Controller (`src/group-queue.ts`) is
not among the provided sources — only the spec (§4.1) and the architecture
document describe it.  Per the spec, `Admit` spawns a fresh Worker
Invocation only when the conversation has no live worker; when a live
worker exists the admitted Work Unit is queued as an inbound Mailbox
Message delivered to that worker instead.  A worker is removed when its
process exits.  `QCState.workers` is the multiset of live worker
invocations tagged with their conversation key. -/
structure QCState where
  workers : List (String × Nat)
  inboxes : List (String × String)
  nextId : Nat
deriving DecidableEq

def hasLiveWorker (st : QCState) (conv : String) : Bool :=
  st.workers.any (fun w => decide (w.1 = conv))

def submitWork (st : QCState) (conv text : String) : QCState :=
  if hasLiveWorker st conv then
    { st with inboxes := st.inboxes ++ [(conv, text)] }
  else
    { st with workers := (conv, st.nextId) :: st.workers,
              nextId := st.nextId + 1 }

def workerExit (st : QCState) (wid : Nat) : QCState :=
  { st with workers := st.workers.filter (fun w => decide (w.2 ≠ wid)) }

inductive QCOp where
  | submit (conv text : String)
  | exitW (wid : Nat)

def applyOp (st : QCState) : QCOp → QCState
  | .submit conv text => submitWork st conv text
  | .exitW wid => workerExit st wid

def initQC : QCState := { workers := [], inboxes := [], nextId := 0 }

def runOps (ops : List QCOp) : QCState :=
  ops.foldl applyOp initQC

/-- Number of live Worker Invocations bound to one conversation. -/
def workersFor (st : QCState) (conv : String) : Nat :=
  (st.workers.filter (fun w => decide (w.1 = conv))).length

theorem workersFor_applyOp (st : QCState) (op : QCOp)
    (h : ∀ c, workersFor st c ≤ 1) :
    ∀ c, workersFor (applyOp st op) c ≤ 1 := by
  intro c
  cases op with
  | submit conv text =>
    show workersFor (submitWork st conv text) c ≤ 1
    rw [submitWork]
    by_cases hl : hasLiveWorker st conv
    · rw [if_pos hl]
      exact h c
    · rw [if_neg hl]
      show ((((conv, st.nextId) :: st.workers).filter
        (fun w => decide (w.1 = c))).length) ≤ 1
      by_cases hc : conv = c
      · have hnone : st.workers.filter (fun w => decide (w.1 = c)) = [] := by
          rw [List.filter_eq_nil_iff]
          intro w hw
          simp only [decide_eq_true_eq]
          intro hwc
          apply hl
          rw [hasLiveWorker, List.any_eq_true]
          exact ⟨w, hw, by simp [hwc, hc]⟩
        rw [List.filter_cons_of_pos (by simp [hc]), hnone]
        simp
      · rw [List.filter_cons_of_neg (by simp [hc])]
        exact h c
  | exitW wid =>
    show workersFor (workerExit st wid) c ≤ 1
    have hsub : List.Sublist
        ((st.workers.filter (fun w => decide (w.2 ≠ wid))).filter
          (fun w => decide (w.1 = c)))
        (st.workers.filter (fun w => decide (w.1 = c))) :=
      (List.filter_sublist _).filter _
    exact le_trans hsub.length_le (h c)

theorem workersFor_runOps_aux : ∀ (ops : List QCOp) (st : QCState),
    (∀ c, workersFor st c ≤ 1) →
    ∀ c, workersFor (ops.foldl applyOp st) c ≤ 1 := by
  intro ops
  induction ops with
  | nil => intro st h c; exact h c
  | cons op rest ih =>
    intro st h c
    rw [List.foldl_cons]
    exact ih (applyOp st op) (workersFor_applyOp st op h) c

/-- C1: along any trace of admissions and worker exits, every conversation
has at most one live Worker Invocation at any instant; admitting a Work
Unit for a conversation with a live worker spawns nothing and instead
appends an inbound Mailbox Message for that conversation, while admitting
with no live worker spawns exactly one fresh worker. -/
theorem at_most_one_worker (ops : List QCOp) (conv : String) :
    workersFor (runOps ops) conv ≤ 1
    ∧ (∀ st text, hasLiveWorker st conv = true →
        (submitWork st conv text).workers = st.workers
        ∧ (submitWork st conv text).inboxes = st.inboxes ++ [(conv, text)])
    ∧ (∀ st text, hasLiveWorker st conv = false →
        (submitWork st conv text).workers = (conv, st.nextId) :: st.workers) := by
  refine ⟨?_, ?_, ?_⟩
  · exact workersFor_runOps_aux ops initQC (fun c => Nat.zero_le 1) conv
  · intro st text hl
    rw [submitWork, if_pos hl]
    exact ⟨rfl, rfl⟩
  · intro st text hl
    rw [submitWork, if_neg (by rw [hl]; exact Bool.false_ne_true)]

/-- Witness for C1: two admissions for `g1` while its worker is live. -/
theorem at_most_one_worker_witness :
    workersFor (runOps [.submit "g1" "hello", .submit "g1" "also this"]) "g1" ≤ 1
    ∧ (submitWork { workers := [("g1", 0)], inboxes := [], nextId := 1 }
        "g1" "x").workers = [("g1", 0)]
    ∧ (submitWork { workers := [("g1", 0)], inboxes := [], nextId := 1 }
        "g1" "x").inboxes = [] ++ [("g1", "x")] :=
  ⟨(at_most_one_worker [.submit "g1" "hello", .submit "g1" "also this"] "g1").1,
   ((at_most_one_worker [] "g1").2.1
      { workers := [("g1", 0)], inboxes := [], nextId := 1 } "x" (by decide)).1,
   ((at_most_one_worker [] "g1").2.1
      { workers := [("g1", 0)], inboxes := [], nextId := 1 } "x" (by decide)).2⟩

end Stingyclaw
